import Mathlib

/-!
Verification development for the anagram library `anagramma.js`.

The JavaScript source is shallowly embedded: strings are Lean `String`s
(sequences of Unicode code points), JS numbers holding integer values are
`ℕ`, JS arrays are `List`s, and JS plain objects used as dictionaries are
association lists in insertion order together with an explicit model of
the JS own-property iteration order (array-index keys first in ascending
numeric order, then the remaining string keys in insertion order).
-/

/-- Model of the character class matched by the JS regex `\s`:
space, tab, line feed, vertical tab, form feed, carriage return, NBSP,
Ogham space mark, the U+2000..U+200A range, line/paragraph separators,
narrow no-break space, medium mathematical space, ideographic space, BOM. -/
def isWhitespaceJS (c : Char) : Bool :=
  c == ' ' || c == '\t' || c == '\n' || c == '\x0b' || c == '\x0c' || c == '\r' ||
  c == '\u00A0' || c == '\u1680' || (decide ('\u2000' ≤ c) && decide (c ≤ '\u200A')) ||
  c == '\u2028' || c == '\u2029' || c == '\u202F' || c == '\u205F' || c == '\u3000' ||
  c == '\uFEFF'

/-- Model of `String.prototype.trim`: drop whitespace from both ends. -/
def trimJS (l : List Char) : List Char :=
  ((l.dropWhile isWhitespaceJS).reverse.dropWhile isWhitespaceJS).reverse

/-- `normalizza(parola)`: `parola.toLowerCase().replace(/\s+/g, '').trim()`.
Lowercasing is modelled per code point by `Char.toLower`; replacing every
run of whitespace by the empty string removes exactly the whitespace
characters, i.e. it is a filter. -/
def normalizza (parola : String) : String :=
  String.mk (trimJS ((parola.data.map Char.toLower).filter (fun c => !isWhitespaceJS c)))

/-- `str.split('').sort().join('')`, the local `ordina` helper of
`sonoAnagrammi` and the body of `chiaveAnagramma`.  The default JS
`Array.prototype.sort` on single-character strings sorts by code-point
order; any stable sort models it, and a structurally recursive insertion
sort keeps the definition computable by kernel reduction. -/
def ordina (s : String) : String := String.mk (s.data.insertionSort (fun c d => c ≤ d))

/-- `sonoAnagrammi(parola1, parola2)`. -/
def sonoAnagrammi (parola1 parola2 : String) : Bool :=
  let p1 := normalizza parola1
  let p2 := normalizza parola2
  if p1.length ≠ p2.length then false
  else ordina p1 == ordina p2

/-- For each index `i` of the array, the pair of `array[i]` and
`[...array.slice(0, i), ...array.slice(i + 1)]`, in index order.  This is
the list of head choices made by the loop of `permutazioni`. -/
def removals {α : Type} : List α → List (α × List α)
  | [] => []
  | a :: resto => (a, resto) :: (removals resto).map (fun p => (p.1, a :: p.2))

theorem removals_rest_length {α : Type} :
    ∀ {l : List α} {p : α × List α}, p ∈ removals l → p.2.length + 1 = l.length := by
  intro l
  induction l with
  | nil => intro p h; cases h
  | cons a resto ih =>
    intro p hp
    rcases List.mem_cons.mp hp with h | h
    · subst h; rfl
    · rcases List.mem_map.mp h with ⟨q, hq, rfl⟩
      have := ih hq
      simp only [List.length_cons]
      omega

/-- `permutazioni(array)`: arrays of length at most one permute to
themselves; otherwise, for each index `i`, fix `array[i]` as head and
prepend it to every permutation of the remaining elements. -/
def permutazioni {α : Type} (l : List α) : List (List α) :=
  if l.length ≤ 1 then [l]
  else (removals l).attach.flatMap
    (fun q => (permutazioni q.1.2).map (fun perm => q.1.1 :: perm))
termination_by l.length
decreasing_by
  have h := removals_rest_length q.2
  omega

/-- `[...new Set(xs)]`: the distinct elements of `xs`, keeping the first
occurrence of each value, in first-occurrence order. -/
def setDedup {α : Type} [DecidableEq α] : List α → List α
  | [] => []
  | a :: resto => a :: (setDedup resto).filter (fun b => decide (b ≠ a))

/-- `generaAnagrammi(parola, unicoRisultato)`.  The `console.warn`
advisory for long words has no effect on the returned value and is not
modelled. -/
def generaAnagrammi (parola : String) (unicoRisultato : Bool) : List String :=
  let parolaNormalizzata := normalizza parola
  let lettere := parolaNormalizzata.data
  let tuttePermutazioni := permutazioni lettere
  let anagrammi := tuttePermutazioni.map (fun perm => String.mk perm)
  if unicoRisultato then setDedup anagrammi else anagrammi

/-- The local `fattoriale` helper of `contaAnagrammi`: `1` for `n ≤ 1`,
otherwise the product of `2, 3, ..., n` accumulated by the loop.  The JS
loop multiplies float64 values; this exact-natural model agrees with it
wherever the float computation is exact, which is every `n ≤ 22` — see
`fattorialeF64` below for the rounding model and the divergence at
`n = 23`. -/
def fattoriale (n : ℕ) : ℕ := if n ≤ 1 then 1 else (List.range' 2 (n - 1)).prod

/-- Bit length of a natural number, fuel-bounded; the fuel covers every
finite float64 value. -/
def bitLenAux : ℕ → ℕ → ℕ
  | 0, _ => 0
  | fuel + 1, n => if n = 0 then 0 else bitLenAux fuel (n / 2) + 1

/-- Bit length of a natural number below `2^1100`. -/
def bitLen (n : ℕ) : ℕ := bitLenAux 1100 n

/-- Round a natural number to the nearest float64 value (53 significant
bits, ties to even).  This is exact IEEE-754 double rounding for every
value below the overflow threshold `2^1024`; the factorial values
exercised below stay far under it. -/
def roundF64 (n : ℕ) : ℕ :=
  if n < 2 ^ 53 then n
  else
    let e := bitLen n - 53
    let q := n / 2 ^ e
    let r := n % 2 ^ e
    let half := 2 ^ (e - 1)
    if half < r ∨ (r = half ∧ q % 2 = 1) then (q + 1) * 2 ^ e else q * 2 ^ e

/-- The `fattoriale` loop as the JS engine actually computes it: a
float64 accumulator, every multiplication rounded to 53 significant
bits.  Faithful whenever the intermediate products stay below `2^1024`
(no overflow), which holds at the inputs used below; beyond that the JS
accumulator becomes `Infinity` (from `n = 171`), which this
natural-number rendering does not reach. -/
def fattorialeF64 (n : ℕ) : ℕ :=
  if n ≤ 1 then 1
  else (List.range' 2 (n - 1)).foldl (fun result i => roundF64 (result * i)) 1

/-- `obj[k] = f(obj[k])` on a JS object represented as an association
list in insertion order: update the existing entry for `k` in place, or
append a new entry at the end. -/
def objUpdate {κ β : Type} [DecidableEq κ] : List (κ × β) → κ → (Option β → β) → List (κ × β)
  | [], k, f => [(k, f none)]
  | (k', v) :: resto, k, f =>
    if k' = k then (k', f (some v)) :: resto else (k', v) :: objUpdate resto k f

/-- The `conteggio` object of `contaAnagrammi`:
`conteggio[lettera] = (conteggio[lettera] || 0) + 1` over the letters. -/
def conteggioOf (lettere : List Char) : List (Char × ℕ) :=
  lettere.foldl (fun conteggio lettera =>
    objUpdate conteggio lettera (fun o => o.getD 0 + 1)) []

/-- JS own-property iteration order (used by `Object.values` and
`Object.entries`): keys that are canonical array indices first, in
ascending numeric order, then the remaining string keys in insertion
order. -/
def jsEntries {κ β : Type} (isIdx : κ → Bool) (keyVal : κ → ℕ) (m : List (κ × β)) :
    List (κ × β) :=
  (m.filter (fun p => isIdx p.1)).insertionSort (fun p q => keyVal p.1 ≤ keyVal q.1) ++
    m.filter (fun p => !isIdx p.1)

/-- A single-character object key is an array index exactly when it is a
decimal digit. -/
def charKeyIsIndex (c : Char) : Bool := c.isDigit

/-- Numeric value of a single-character digit key. -/
def charKeyVal (c : Char) : ℕ := c.toNat - 48

/-- The `numeratore` of `contaAnagrammi`: `fattoriale(lettere.length)`. -/
def contaNumeratore (parola : String) : ℕ := fattoriale (normalizza parola).data.length

/-- The `denominatore` of `contaAnagrammi`: the product of
`fattoriale(count)` over `Object.values(conteggio)`. -/
def contaDenominatore (parola : String) : ℕ :=
  ((jsEntries charKeyIsIndex charKeyVal (conteggioOf (normalizza parola).data)).map
    (fun p => fattoriale p.2)).prod

/-- `contaAnagrammi(parola) = numeratore / denominatore`, in exact
natural-number arithmetic.  The division is exact in this model (proved
below), and the model returns the same value as the JS float64 program
for every word whose normalized length is at most 22, where all the
factorials, partial products and the quotient are exactly representable
doubles.  From 23 distinct letters on the float64 program drifts from
the exact count, and from 171 letters it returns
`Infinity / Infinity = NaN` — see `fattorialeF64` and the divergence
theorem below. -/
def contaAnagrammi (parola : String) : ℕ := contaNumeratore parola / contaDenominatore parola

/-- `chiaveAnagramma(parola)`: `normalizza(parola).split('').sort().join('')`. -/
def chiaveAnagramma (parola : String) : String := ordina (normalizza parola)

/-- Numeric value of a decimal string key. -/
def keyToNat (s : String) : ℕ := s.data.foldl (fun acc c => 10 * acc + (c.toNat - 48)) 0

/-- Whether a string object key is a canonical array index: `"0"`, or a
digit string without leading zero, whose value is below `2^32 - 1`. -/
def isArrayIndexKey (s : String) : Bool :=
  (s.data == ['0'] ||
    (!s.data.isEmpty && s.data.all Char.isDigit && s.data.head? != some '0')) &&
  decide (keyToNat s < 4294967295)

/-- The `gruppi` object of `raggruppaAnagrammi`: push each word onto the
bucket of its anagram key, creating the bucket on first use. -/
def gruppiOf (parole : List String) : List (String × List String) :=
  parole.foldl (fun gruppi parola =>
    objUpdate gruppi (chiaveAnagramma parola) (fun o => o.getD [] ++ [parola])) []

/-- `raggruppaAnagrammi(parole)`: iterate `Object.entries(gruppi)` and
keep the buckets with more than one word, building `risultato` in that
entry order. -/
def raggruppaAnagrammi (parole : List String) : List (String × List String) :=
  (jsEntries isArrayIndexKey keyToNat (gruppiOf parole)).filter (fun p => decide (1 < p.2.length))

/-- Reading `obj[k]` from an object represented as an association list. -/
def lookupAssoc {κ β : Type} [DecidableEq κ] : List (κ × β) → κ → Option β
  | [], _ => none
  | (k', v) :: resto, k => if k' = k then some v else lookupAssoc resto k

/-- The destructuring swap `[l[i], l[j]] = [l[j], l[i]]`, a no-op when an
index is out of range. -/
def swapList {α : Type} (l : List α) (i j : ℕ) : List α :=
  match l[i]?, l[j]? with
  | some a, some b => (l.set i b).set j a
  | _, _ => l

/-- The Fisher–Yates loop of `mescolaLettere`: for `i` from the given
start down to `1`, swap position `i` with the supplied random position
`j`, consuming one choice per iteration. -/
def fyLoop {α : Type} : List α → ℕ → List ℕ → List α
  | l, 0, _ => l
  | l, _ + 1, [] => l
  | l, i + 1, j :: js => fyLoop (swapList l (i + 1) j) i js

/-- `mescolaLettere(parola)`, with the sequence of random indices
`Math.floor(Math.random() * (i + 1))` made an explicit argument. -/
def mescolaLettere (parola : String) (js : List ℕ) : String :=
  String.mk (fyLoop parola.data (parola.data.length - 1) js)

/-- The choice sequences the Fisher–Yates loop can actually draw: one
choice `j ≤ i` for each `i` from the start value down to `1`. -/
def validChoices : ℕ → List ℕ → Bool
  | 0, js => js.isEmpty
  | _ + 1, [] => false
  | i + 1, j :: js => decide (j ≤ i + 1) && validChoices i js

/-- Modelled from the spec: the key order the specification asserts for
`raggruppaAnagrammi`, namely the surviving anagram keys in insertion
order of their first occurrence in the input list. -/
def specInsertionKeyOrder (parole : List String) : List String :=
  (setDedup (parole.map chiaveAnagramma)).filter
    (fun k => decide (1 < (parole.filter (fun w => decide (chiaveAnagramma w = k))).length))

/-- The set of distinct permutations produced by `permutazioni`. -/
def distinctPerms {α : Type} [DecidableEq α] (l : List α) : Finset (List α) :=
  (permutazioni l).toFinset

theorem flatMap_attach_eq {α β : Type} (l : List α) (f : α → List β) :
    l.attach.flatMap (fun q => f q.1) = l.flatMap f := by
  have h : l.attach.map (fun q => q.1) = l := by simp
  calc l.attach.flatMap (fun q => f q.1)
      = (l.attach.map (fun q => q.1)).flatMap f := (List.flatMap_map _ _ _).symm
    _ = l.flatMap f := by rw [h]

theorem permutazioni_base {α : Type} {l : List α} (h : l.length ≤ 1) :
    permutazioni l = [l] := by
  rw [permutazioni, if_pos h]

theorem permutazioni_unfold {α : Type} {l : List α} (h : ¬ l.length ≤ 1) :
    permutazioni l = (removals l).flatMap
      (fun p => (permutazioni p.2).map (fun perm => p.1 :: perm)) := by
  rw [permutazioni, if_neg h]
  exact flatMap_attach_eq (removals l) (fun p => (permutazioni p.2).map (fun perm => p.1 :: perm))

theorem removals_length {α : Type} (l : List α) : (removals l).length = l.length := by
  induction l with
  | nil => rfl
  | cons a resto ih => simp [removals, ih]

theorem removals_map_fst {α : Type} (l : List α) : (removals l).map Prod.fst = l := by
  induction l with
  | nil => rfl
  | cons a resto ih =>
    simp only [removals, List.map_cons, List.map_map]
    congr 1

theorem removal_perm {α : Type} :
    ∀ {l : List α} {p : α × List α}, p ∈ removals l → l.Perm (p.1 :: p.2) := by
  intro l
  induction l with
  | nil => intro p h; cases h
  | cons a resto ih =>
    intro p hp
    rcases List.mem_cons.mp hp with h | h
    · subst h; exact List.Perm.refl _
    · rcases List.mem_map.mp h with ⟨q, hq, rfl⟩
      have h1 : resto.Perm (q.1 :: q.2) := ih hq
      exact (h1.cons a).trans (List.Perm.swap q.1 a q.2)

theorem exists_removal_of_mem {α : Type} :
    ∀ {l : List α} {a : α}, a ∈ l → ∃ r, (a, r) ∈ removals l ∧ l.Perm (a :: r) := by
  intro l
  induction l with
  | nil => intro a h; cases h
  | cons b resto ih =>
    intro a ha
    rcases List.mem_cons.mp ha with h | h
    · subst h; exact ⟨resto, List.mem_cons_self _ _, List.Perm.refl _⟩
    · rcases ih h with ⟨r', hr', hperm⟩
      refine ⟨b :: r', ?_, ?_⟩
      · exact List.mem_cons_of_mem _ (List.mem_map.mpr ⟨(a, r'), hr', rfl⟩)
      · exact (hperm.cons b).trans (List.Perm.swap a b r')

theorem length_permutazioni {α : Type} (l : List α) :
    (permutazioni l).length = Nat.factorial l.length := by
  generalize hn : l.length = n
  induction n using Nat.strong_induction_on generalizing l with
  | _ n ih =>
    by_cases h : l.length ≤ 1
    · rw [permutazioni_base h]
      have hn1 : n ≤ 1 := hn ▸ h
      interval_cases n <;> rfl
    · rw [permutazioni_unfold h, List.length_flatMap]
      have hmap : (removals l).map
          (List.length ∘ fun p => (permutazioni p.2).map (fun perm => p.1 :: perm)) =
          (removals l).map (fun _ => Nat.factorial (n - 1)) := by
        apply List.map_congr_left
        intro p hp
        have hlen : p.2.length + 1 = l.length := removals_rest_length hp
        simp only [Function.comp, List.length_map]
        rw [ih (n - 1) (by omega) p.2 (by omega)]
      rw [hmap, List.map_const', List.sum_replicate, smul_eq_mul, removals_length, hn]
      have : n = (n - 1) + 1 := by omega
      rw [this, Nat.factorial_succ]
      congr 1

theorem mem_permutazioni {α : Type} (l p : List α) :
    p ∈ permutazioni l ↔ p.Perm l := by
  constructor
  · intro hp
    generalize hn : l.length = n at *
    induction n using Nat.strong_induction_on generalizing l p with
    | _ n ih =>
      by_cases h : l.length ≤ 1
      · rw [permutazioni_base h] at hp
        rcases List.mem_singleton.mp hp with rfl
        exact List.Perm.refl _
      · rw [permutazioni_unfold h] at hp
        rcases List.mem_flatMap.mp hp with ⟨q, hq, hmem⟩
        rcases List.mem_map.mp hmem with ⟨perm, hperm, rfl⟩
        have hlen : q.2.length + 1 = l.length := removals_rest_length hq
        have h1 : perm.Perm q.2 :=
          ih (n - 1) (by omega) q.2 perm hperm (by omega)
        exact ((h1.cons q.1).trans (removal_perm hq).symm)
  · intro hp
    generalize hn : l.length = n at *
    induction n using Nat.strong_induction_on generalizing l p with
    | _ n ih =>
      by_cases h : l.length ≤ 1
      · rw [permutazioni_base h]
        have hl : p = l := by
          rcases l with _ | ⟨a, _ | _⟩
          · exact List.perm_nil.mp hp
          · exact List.perm_singleton.mp hp
          · simp at h
        simp [hl]
      · rw [permutazioni_unfold h]
        have hpne : p ≠ [] := by
          intro hcon
          subst hcon
          have := hp.length_eq
          simp at this
          omega
        rcases p with _ | ⟨a, p'⟩
        · exact absurd rfl hpne
        · have ha : a ∈ l := hp.mem_iff.mp (List.mem_cons_self a p')
          rcases exists_removal_of_mem ha with ⟨r, hr, hperm⟩
          have h2 : p'.Perm r := by
            have h3 : (a :: p').Perm (a :: r) := hp.trans hperm
            exact h3.cons_inv
          have hlen : r.length + 1 = l.length := removals_rest_length hr
          have h4 : p' ∈ permutazioni r :=
            ih (n - 1) (by omega) r p' h2 (by omega)
          exact List.mem_flatMap.mpr ⟨(a, r), hr, List.mem_map.mpr ⟨p', h4, rfl⟩⟩

theorem nodup_permutazioni {α : Type} (l : List α) (hl : l.Nodup) :
    (permutazioni l).Nodup := by
  generalize hn : l.length = n
  induction n using Nat.strong_induction_on generalizing l with
  | _ n ih =>
    by_cases h : l.length ≤ 1
    · rw [permutazioni_base h]
      exact List.nodup_singleton l
    · rw [permutazioni_unfold h]
      rw [List.nodup_flatMap]
      constructor
      · intro p hp
        have hlen : p.2.length + 1 = l.length := removals_rest_length hp
        have hperm : l.Perm (p.1 :: p.2) := removal_perm hp
        have hnd : (p.1 :: p.2).Nodup := hperm.nodup hl
        have hnd2 : p.2.Nodup := (List.nodup_cons.mp hnd).2
        refine List.Nodup.map ?_ (ih (n - 1) (by omega) p.2 hnd2 (by omega))
        intro x y hxy
        exact (List.cons.injEq _ _ _ _ ▸ hxy).2
      · have hfst : (removals l).Pairwise (fun p q => p.1 ≠ q.1) := by
          have h1 : ((removals l).map Prod.fst).Pairwise (fun a b => a ≠ b) := by
            rw [removals_map_fst]
            exact hl
          exact (List.pairwise_map.mp h1)
        refine hfst.imp ?_
        intro p q hpq
        intro x hxp hxq
        rcases List.mem_map.mp hxp with ⟨u, _, rfl⟩
        rcases List.mem_map.mp hxq with ⟨v, _, hv⟩
        exact hpq ((List.cons.injEq _ _ _ _ ▸ hv).1.symm)

theorem mem_setDedup {α : Type} [DecidableEq α] (l : List α) (x : α) :
    x ∈ setDedup l ↔ x ∈ l := by
  induction l with
  | nil => rfl
  | cons a resto ih =>
    rw [setDedup, List.mem_cons, List.mem_cons]
    constructor
    · rintro (rfl | hx)
      · exact Or.inl rfl
      · exact Or.inr (ih.mp (List.mem_of_mem_filter hx))
    · rintro (rfl | hx)
      · exact Or.inl rfl
      · by_cases hxa : x = a
        · exact Or.inl hxa
        · exact Or.inr (List.mem_filter.mpr ⟨ih.mpr hx, by simp [hxa]⟩)

theorem nodup_setDedup {α : Type} [DecidableEq α] (l : List α) : (setDedup l).Nodup := by
  induction l with
  | nil => exact List.nodup_nil
  | cons a resto ih =>
    rw [setDedup, List.nodup_cons]
    constructor
    · intro hmem
      have := (List.mem_filter.mp hmem).2
      simp at this
    · exact ih.filter _

theorem toFinset_setDedup {α : Type} [DecidableEq α] (l : List α) :
    (setDedup l).toFinset = l.toFinset := by
  ext x
  simp [mem_setDedup]

theorem length_setDedup {α : Type} [DecidableEq α] (l : List α) :
    (setDedup l).length = l.toFinset.card := by
  rw [← toFinset_setDedup, List.toFinset_card_of_nodup (nodup_setDedup l)]

theorem setDedup_map_injective {α β : Type} [DecidableEq α] [DecidableEq β]
    (f : α → β) (hf : Function.Injective f) (l : List α) :
    setDedup (l.map f) = (setDedup l).map f := by
  induction l with
  | nil => rfl
  | cons a resto ih =>
    rw [List.map_cons, setDedup, setDedup, List.map_cons, ih, List.filter_map]
    congr 2
    apply List.filter_congr
    intro x _
    simp only [Function.comp]
    by_cases hx : x = a
    · subst hx; simp
    · have : f x ≠ f a := fun hc => hx (hf hc)
      simp [this, hx]

theorem mem_distinctPerms {α : Type} [DecidableEq α] (l p : List α) :
    p ∈ distinctPerms l ↔ p.Perm l := by
  rw [distinctPerms, List.mem_toFinset, mem_permutazioni]

theorem cons_list_injective {α : Type} (a : α) :
    Function.Injective (fun q : List α => a :: q) := by
  intro x y h
  simpa using h

theorem distinctPerms_decomp {α : Type} [DecidableEq α] (l : List α) (hl : l ≠ []) :
    distinctPerms l = l.toFinset.biUnion
      (fun a => (distinctPerms (l.erase a)).image (fun q => a :: q)) := by
  ext p
  simp only [mem_distinctPerms, Finset.mem_biUnion, Finset.mem_image, List.mem_toFinset]
  constructor
  · intro hp
    rcases p with _ | ⟨a, p'⟩
    · exact absurd (List.perm_nil.mp hp.symm) hl
    · have h := List.cons_perm_iff_perm_erase.mp hp
      exact ⟨a, h.1, p', h.2, rfl⟩
  · rintro ⟨a, ha, q, hq, rfl⟩
    exact List.cons_perm_iff_perm_erase.mpr ⟨ha, hq⟩

theorem distinctPerms_card_mul {α : Type} [DecidableEq α] (l : List α) :
    (distinctPerms l).card * ∏ c ∈ l.toFinset, (List.count c l).factorial =
      Nat.factorial l.length := by
  generalize hn : l.length = n
  induction n using Nat.strong_induction_on generalizing l with
  | _ n ih =>
    rcases l with _ | ⟨b, resto⟩
    · have hn0 : n = 0 := by simpa using hn.symm
      subst hn0
      rw [distinctPerms, permutazioni_base (by simp)]
      simp
    · have hl : (b :: resto) ≠ [] := by simp
      have hnpos : 0 < n := by
        simp only [List.length_cons] at hn
        omega
      have hdisj : ∀ x ∈ (b :: resto).toFinset, ∀ y ∈ (b :: resto).toFinset, x ≠ y →
          Disjoint ((distinctPerms ((b :: resto).erase x)).image (fun q => x :: q))
            ((distinctPerms ((b :: resto).erase y)).image (fun q => y :: q)) := by
        intro x _ y _ hxy
        rw [Finset.disjoint_left]
        intro z hzx hzy
        rcases Finset.mem_image.mp hzx with ⟨u, _, rfl⟩
        rcases Finset.mem_image.mp hzy with ⟨v, _, hv⟩
        exact hxy ((List.cons.injEq _ _ _ _ ▸ hv).1.symm)
      have hcard : (distinctPerms (b :: resto)).card =
          ∑ a ∈ (b :: resto).toFinset, (distinctPerms ((b :: resto).erase a)).card := by
        rw [distinctPerms_decomp _ hl, Finset.card_biUnion hdisj]
        exact Finset.sum_congr rfl (fun a _ =>
          Finset.card_image_of_injective _ (cons_list_injective a))
      have hstep : ∀ a ∈ (b :: resto).toFinset,
          (distinctPerms ((b :: resto).erase a)).card *
            ∏ c ∈ (b :: resto).toFinset, (List.count c (b :: resto)).factorial =
          List.count a (b :: resto) * Nat.factorial (n - 1) := by
        intro a haT
        have ha : a ∈ b :: resto := List.mem_toFinset.mp haT
        have hpos : 0 < List.count a (b :: resto) := List.count_pos_iff.mpr ha
        have herl : ((b :: resto).erase a).length = n - 1 := by
          rw [List.length_erase_of_mem ha, hn]
        have hsub : ((b :: resto).erase a).toFinset ⊆ (b :: resto).toFinset := by
          intro x hx
          rw [List.mem_toFinset] at hx ⊢
          exact ((b :: resto).erase_sublist a).subset hx
        have hext : ∏ c ∈ ((b :: resto).erase a).toFinset,
              (List.count c ((b :: resto).erase a)).factorial =
            ∏ c ∈ (b :: resto).toFinset,
              (List.count c ((b :: resto).erase a)).factorial := by
          refine Finset.prod_subset hsub ?_
          intro x _ hxnot
          have hxmem : x ∉ (b :: resto).erase a := fun hc =>
            hxnot (List.mem_toFinset.mpr hc)
          rw [List.count_eq_zero.mpr hxmem]
          rfl
        have hsplit : ∏ c ∈ (b :: resto).toFinset,
              (List.count c ((b :: resto).erase a)).factorial =
            (List.count a (b :: resto) - 1).factorial *
              ∏ c ∈ (b :: resto).toFinset.erase a, (List.count c (b :: resto)).factorial := by
          rw [← Finset.mul_prod_erase (b :: resto).toFinset
            (fun c => (List.count c ((b :: resto).erase a)).factorial) haT,
            List.count_erase_self]
          congr 1
          refine Finset.prod_congr rfl ?_
          intro c hc
          rw [List.count_erase_of_ne (Finset.ne_of_mem_erase hc)]
        have hih : (distinctPerms ((b :: resto).erase a)).card *
            ∏ c ∈ ((b :: resto).erase a).toFinset,
              (List.count c ((b :: resto).erase a)).factorial =
            Nat.factorial (n - 1) :=
          ih (n - 1) (by omega) _ herl
        calc (distinctPerms ((b :: resto).erase a)).card *
              ∏ c ∈ (b :: resto).toFinset, (List.count c (b :: resto)).factorial
            = (distinctPerms ((b :: resto).erase a)).card *
              ((List.count a (b :: resto)).factorial *
                ∏ c ∈ (b :: resto).toFinset.erase a,
                  (List.count c (b :: resto)).factorial) :=
              congrArg (fun x => (distinctPerms ((b :: resto).erase a)).card * x)
                (Finset.mul_prod_erase (b :: resto).toFinset
                  (fun c => (List.count c (b :: resto)).factorial) haT).symm
          _ = List.count a (b :: resto) *
              ((distinctPerms ((b :: resto).erase a)).card *
                ((List.count a (b :: resto) - 1).factorial *
                  ∏ c ∈ (b :: resto).toFinset.erase a,
                    (List.count c (b :: resto)).factorial)) := by
              rw [← Nat.mul_factorial_pred hpos]
              ring
          _ = List.count a (b :: resto) *
              ((distinctPerms ((b :: resto).erase a)).card *
                ∏ c ∈ ((b :: resto).erase a).toFinset,
                  (List.count c ((b :: resto).erase a)).factorial) := by
              rw [hext, hsplit]
          _ = List.count a (b :: resto) * Nat.factorial (n - 1) := by rw [hih]
      calc (distinctPerms (b :: resto)).card *
            ∏ c ∈ (b :: resto).toFinset, (List.count c (b :: resto)).factorial
          = ∑ a ∈ (b :: resto).toFinset,
              ((distinctPerms ((b :: resto).erase a)).card *
                ∏ c ∈ (b :: resto).toFinset, (List.count c (b :: resto)).factorial) := by
            rw [hcard, Finset.sum_mul]
        _ = ∑ a ∈ (b :: resto).toFinset,
              List.count a (b :: resto) * Nat.factorial (n - 1) :=
            Finset.sum_congr rfl hstep
        _ = (∑ a ∈ (b :: resto).toFinset, List.count a (b :: resto)) *
              Nat.factorial (n - 1) := by
            rw [Finset.sum_mul]
        _ = n * Nat.factorial (n - 1) := by
            rw [List.sum_toFinset_count_eq_length, hn]
        _ = Nat.factorial n := Nat.mul_factorial_pred hnpos

theorem objUpdate_map_mem {κ β : Type} [DecidableEq κ] (K : List κ) (f : κ → β) (k : κ)
    (g : Option β → β) (hK : K.Nodup) (hk : k ∈ K) :
    objUpdate (K.map (fun x => (x, f x))) k g =
      K.map (fun x => (x, if x = k then g (some (f x)) else f x)) := by
  induction K with
  | nil => cases hk
  | cons a resto ih =>
    rw [List.map_cons, List.map_cons, objUpdate]
    by_cases hak : a = k
    · rw [if_pos hak]
      subst hak
      have hanr : a ∉ resto := (List.nodup_cons.mp hK).1
      rw [if_pos rfl]
      congr 1
      apply (List.map_congr_left ?_).symm
      intro x hx
      have hxa : x ≠ a := fun hc => hanr (hc ▸ hx)
      rw [if_neg hxa]
    · rw [if_neg hak, if_neg hak]
      have hkr : k ∈ resto := by
        rcases List.mem_cons.mp hk with h | h
        · exact absurd h.symm hak
        · exact h
      rw [ih (List.nodup_cons.mp hK).2 hkr]

theorem objUpdate_map_not_mem {κ β : Type} [DecidableEq κ] (K : List κ) (f : κ → β) (k : κ)
    (g : Option β → β) (hk : k ∉ K) :
    objUpdate (K.map (fun x => (x, f x))) k g = K.map (fun x => (x, f x)) ++ [(k, g none)] := by
  induction K with
  | nil => rfl
  | cons a resto ih =>
    rw [List.map_cons, objUpdate]
    have hak : a ≠ k := fun hc => hk (hc ▸ List.mem_cons_self a resto)
    rw [if_neg hak, ih (fun hc => hk (List.mem_cons_of_mem a hc))]
    rfl

theorem setDedup_append_singleton {α : Type} [DecidableEq α] (l : List α) (c : α) :
    setDedup (l ++ [c]) = if c ∈ l then setDedup l else setDedup l ++ [c] := by
  induction l with
  | nil => simp [setDedup]
  | cons a resto ih =>
    rw [List.cons_append, setDedup, ih, setDedup]
    by_cases hcr : c ∈ resto
    · rw [if_pos hcr, if_pos (List.mem_cons_of_mem a hcr)]
    · rw [if_neg hcr, List.filter_append]
      by_cases hca : c = a
      · subst hca
        have hfe : [c].filter (fun b => decide (b ≠ c)) = [] := by simp
        rw [hfe, List.append_nil, if_pos (List.mem_cons_self c resto)]
      · have hfc : [c].filter (fun b => decide (b ≠ a)) = [c] := by simp [hca]
        rw [hfc, if_neg (by simp [hca, hcr]), ← List.cons_append]

theorem conteggioOf_append_singleton (l : List Char) (c : Char) :
    conteggioOf (l ++ [c]) = objUpdate (conteggioOf l) c (fun o => o.getD 0 + 1) := by
  rw [conteggioOf, List.foldl_append]
  rfl

theorem conteggioOf_closed (l : List Char) :
    conteggioOf l = (setDedup l).map (fun c => (c, List.count c l)) := by
  induction l using List.reverseRecOn with
  | nil => simp [conteggioOf, setDedup]
  | append_singleton l c ih =>
    rw [conteggioOf_append_singleton, ih, setDedup_append_singleton]
    by_cases hc : c ∈ l
    · rw [if_pos hc,
        objUpdate_map_mem _ _ _ _ (nodup_setDedup l) ((mem_setDedup _ _).mpr hc)]
      apply List.map_congr_left
      intro x hx
      by_cases hxc : x = c
      · subst hxc
        rw [if_pos rfl]
        simp [List.count_append]
      · rw [if_neg hxc]
        have : List.count x [c] = 0 := by
          rw [List.count_eq_zero]
          simp only [List.mem_singleton]
          exact hxc
        rw [List.count_append, this, Nat.add_zero]
    · rw [if_neg hc,
        objUpdate_map_not_mem _ _ _ _ (fun hm => hc ((mem_setDedup _ _).mp hm)),
        List.map_append]
      congr 1
      · apply List.map_congr_left
        intro x hx
        have hxl : x ∈ l := (mem_setDedup _ _).mp hx
        have hxc : x ≠ c := fun hcon => hc (hcon ▸ hxl)
        have : List.count x [c] = 0 := by
          rw [List.count_eq_zero]
          simp only [List.mem_singleton]
          exact hxc
        rw [List.count_append, this, Nat.add_zero]
      · have hc0 : List.count c l = 0 := List.count_eq_zero.mpr hc
        simp [List.count_append, hc0]

theorem jsEntries_perm {κ β : Type} (isIdx : κ → Bool) (keyVal : κ → ℕ)
    (m : List (κ × β)) : (jsEntries isIdx keyVal m).Perm m := by
  rw [jsEntries]
  exact ((List.perm_insertionSort _ _).append_right _).trans (List.filter_append_perm _ m)

theorem range2_prod (k : ℕ) : (List.range' 2 k).prod = Nat.factorial (k + 1) := by
  induction k with
  | zero => rfl
  | succ k ih =>
    rw [List.range'_concat, List.prod_append, ih]
    have h1 : List.prod [2 + 1 * k] = k + 2 := by simp; omega
    rw [h1]
    rw [show k + 1 + 1 = k + 2 from rfl, Nat.factorial_succ (k + 1)]
    ring

theorem fattoriale_eq (n : ℕ) : fattoriale n = Nat.factorial n := by
  rw [fattoriale]
  by_cases h : n ≤ 1
  · rw [if_pos h]
    interval_cases n <;> rfl
  · rw [if_neg h, range2_prod]
    congr 1
    omega

theorem contaDenominatore_eq (w : String) :
    contaDenominatore w = ∏ c ∈ (normalizza w).data.toFinset,
      (List.count c (normalizza w).data).factorial := by
  rw [contaDenominatore]
  have hperm : ((jsEntries charKeyIsIndex charKeyVal (conteggioOf (normalizza w).data)).map
      (fun p => fattoriale p.2)).Perm
      ((conteggioOf (normalizza w).data).map (fun p => fattoriale p.2)) :=
    (jsEntries_perm _ _ _).map _
  rw [hperm.prod_eq, conteggioOf_closed, List.map_map]
  have h1 : List.map ((fun p => fattoriale p.2) ∘ fun c => (c, List.count c (normalizza w).data))
      (setDedup (normalizza w).data)
      = List.map (fun c => (List.count c (normalizza w).data).factorial)
        (setDedup (normalizza w).data) := by
    apply List.map_congr_left
    intro x _
    simp only [Function.comp]
    rw [fattoriale_eq]
  rw [h1, ← List.prod_toFinset (fun c => (List.count c (normalizza w).data).factorial)
    (nodup_setDedup (normalizza w).data), toFinset_setDedup]

theorem conta_eq_card (w : String) :
    contaAnagrammi w = (distinctPerms (normalizza w).data).card := by
  rw [contaAnagrammi, contaNumeratore, fattoriale_eq, contaDenominatore_eq]
  have h := distinctPerms_card_mul (normalizza w).data
  have hpos : 0 < ∏ c ∈ (normalizza w).data.toFinset,
      (List.count c (normalizza w).data).factorial :=
    Finset.prod_pos (fun i _ => Nat.factorial_pos _)
  exact Nat.div_eq_of_eq_mul_left hpos h.symm

theorem string_mk_injective : Function.Injective String.mk := by
  intro a b h
  exact congrArg String.data h

theorem genera_false_eq (w : String) :
    generaAnagrammi w false = (permutazioni (normalizza w).data).map String.mk := by
  rw [generaAnagrammi]
  simp

theorem genera_true_eq (w : String) :
    generaAnagrammi w true = setDedup ((permutazioni (normalizza w).data).map String.mk) := by
  rw [generaAnagrammi]
  simp

theorem genera_true_length (w : String) :
    (generaAnagrammi w true).length = (distinctPerms (normalizza w).data).card := by
  rw [genera_true_eq, setDedup_map_injective String.mk string_mk_injective,
    List.length_map, length_setDedup]
  rfl

/-- C1: for every word `w`, the number of strings returned by
`generaAnagrammi(w, true)` equals `contaAnagrammi(w)` — the multinomial
coefficient computed over the normalized word's letter multiset equals
the number of distinct permutations of the normalized word. -/
theorem claim_C1_count_matches_enumeration (w : String) :
    (generaAnagrammi w true).length = contaAnagrammi w := by
  rw [genera_true_length, conta_eq_card]

/-- C2 counterexample: `contaAnagrammi "anna"` is `6` (the multiset rule
gives `4! / (2! * 2!) = 6`), not `12` as the claim states. -/
theorem claim_C2_counterexample : contaAnagrammi "anna" ≠ 12 ∧ contaAnagrammi "anna" = 6 := by
  constructor
  · decide
  · decide

/-- C2 amended: `contaAnagrammi` returns `1` for the empty string, `24`
for `"cane"`, and `6` (not `12`) for `"anna"`. -/
theorem claim_C2_concrete_values :
    contaAnagrammi "" = 1 ∧ contaAnagrammi "cane" = 24 ∧ contaAnagrammi "anna" = 6 := by
  refine ⟨by decide, by decide, by decide⟩

/-- C3: `permutazioni` returns exactly `n!` orderings for an `n`-element
input; the orderings are exactly the permutations of the input, each
appearing exactly once when the elements are distinct (orderings are
distinguished by position of the original elements); consequently
`generaAnagrammi(w, false)` returns exactly `factorial(len(normalizza(w)))`
strings. -/
theorem claim_C3_permutation_cardinality (l : List Char) (w : String) :
    (permutazioni l).length = Nat.factorial l.length ∧
    (∀ p, p ∈ permutazioni l ↔ p.Perm l) ∧
    (l.Nodup → (permutazioni l).Nodup) ∧
    (generaAnagrammi w false).length = Nat.factorial (normalizza w).length := by
  refine ⟨length_permutazioni l, mem_permutazioni l, nodup_permutazioni l, ?_⟩
  rw [genera_false_eq, List.length_map, length_permutazioni]
  rfl

/-- C3 witness: the theorem instantiated at concrete inputs, with the
`Nodup` hypothesis discharged on `['a', 'b']`. -/
theorem claim_C3_witness :
    (permutazioni ['a', 'b', 'c']).length = 6 ∧ (permutazioni ['a', 'b']).Nodup := by
  constructor
  · have h := (claim_C3_permutation_cardinality ['a', 'b', 'c'] "x").1
    rw [h]
    rfl
  · exact (claim_C3_permutation_cardinality ['a', 'b'] "x").2.2.1 (by decide)

/-- In the exact natural-number model the intended mathematics is
sound: the count is at least `1` for every word, the denominator divides
the numerator exactly, and the empty word gives `1`.  This is the
property the source documents (`n! / (k1! * ... * km!)`, the number of
distinct anagrams); the float64 program only delivers it on words whose
normalized length stays within the exactly representable range. -/
theorem conta_model_positive_and_exact (w : String) :
    1 ≤ contaAnagrammi w ∧ contaDenominatore w ∣ contaNumeratore w ∧
      contaAnagrammi "" = 1 := by
  refine ⟨?_, ?_, by decide⟩
  · rw [conta_eq_card]
    refine Finset.card_pos.mpr ⟨(normalizza w).data, ?_⟩
    rw [mem_distinctPerms]
  · refine ⟨(distinctPerms (normalizza w).data).card, ?_⟩
    rw [contaNumeratore, fattoriale_eq, contaDenominatore_eq]
    exact ((distinctPerms_card_mul (normalizza w).data).symm.trans
      (Nat.mul_comm _ _))

/-- C4 (code-bug evidence): at the 23-distinct-letter word the multiset
rule gives `23!` with denominator `1`, so the exact model returns
`23!`; but the float64 accumulation the source actually performs cannot
— `23!` has a 55-bit odd part, so no double equals it — while `22!` is
still computed exactly.  The program's value at this word is therefore
not the exact positive integer the claim guarantees (and at a 171-letter
word the source returns `Infinity / Infinity = NaN`). -/
theorem claim_C4_float64_divergence :
    contaDenominatore "abcdefghijklmnopqrstuvw" = 1 ∧
    contaAnagrammi "abcdefghijklmnopqrstuvw" = Nat.factorial 23 ∧
    fattorialeF64 23 ≠ Nat.factorial 23 ∧
    fattorialeF64 22 = fattoriale 22 := by
  refine ⟨by decide, by decide, by decide, by decide⟩

/-- C6: `sonoAnagrammi` returns `false` whenever the normalized lengths
differ, and otherwise returns `true` exactly when the sorted symbol
sequences of the two normalized words coincide. -/
theorem claim_C6_short_circuit_then_sorted (a b : String) :
    ((normalizza a).length ≠ (normalizza b).length → sonoAnagrammi a b = false) ∧
    ((normalizza a).length = (normalizza b).length →
      (sonoAnagrammi a b = true ↔ ordina (normalizza a) = ordina (normalizza b))) := by
  constructor
  · intro h
    simp [sonoAnagrammi, h]
  · intro h
    simp [sonoAnagrammi, h]

/-- C6 witness: the length short-circuit on `"ciao"`/`"hello"` and the
sorted comparison on `"roma"`/`"amor"`. -/
theorem claim_C6_witness :
    sonoAnagrammi "ciao" "hello" = false ∧ sonoAnagrammi "roma" "amor" = true := by
  constructor
  · exact (claim_C6_short_circuit_then_sorted "ciao" "hello").1 (by decide)
  · exact ((claim_C6_short_circuit_then_sorted "roma" "amor").2 (by decide)).mpr (by decide)

theorem toLower_toLower (c : Char) : (Char.toLower c).toLower = Char.toLower c := by
  unfold Char.toLower
  by_cases h : c.toNat ≥ 65 ∧ c.toNat ≤ 90
  · rw [if_pos h]
    have hv : (Char.ofNat (c.toNat + 32)).toNat = c.toNat + 32 := by
      rw [Char.ofNat, dif_pos]
      · rfl
      · exact Or.inl (by omega)
    rw [if_neg (by omega)]
  · rw [if_neg h, if_neg h]

theorem dropWhile_eq_self_of_not {α : Type} (p : α → Bool) (l : List α)
    (h : ∀ c ∈ l, p c = false) : l.dropWhile p = l := by
  cases l with
  | nil => rfl
  | cons a t => simp [List.dropWhile_cons, h a (List.mem_cons_self a t)]

theorem trimJS_eq_self (l : List Char) (h : ∀ c ∈ l, isWhitespaceJS c = false) :
    trimJS l = l := by
  rw [trimJS, dropWhile_eq_self_of_not _ _ h,
    dropWhile_eq_self_of_not _ _ (fun c hc => h c (List.mem_reverse.mp hc)),
    List.reverse_reverse]

theorem normalizza_data (w : String) :
    (normalizza w).data = (w.data.map Char.toLower).filter (fun c => !isWhitespaceJS c) := by
  rw [normalizza]
  exact trimJS_eq_self _ (fun c hc => by
    have := (List.mem_filter.mp hc).2
    simpa using this)

theorem normalizza_chars (w : String) :
    ∀ c ∈ (normalizza w).data, isWhitespaceJS c = false ∧ Char.toLower c = c := by
  intro c hc
  rw [normalizza_data] at hc
  have h1 := List.mem_filter.mp hc
  constructor
  · simpa using h1.2
  · rcases List.mem_map.mp h1.1 with ⟨d, _, rfl⟩
    exact toLower_toLower d

/-- C9: the normalized form of any string contains no whitespace
character and is fully lowercase (every character is fixed by
lowercasing). -/
theorem claim_C9_normalized_shape (w : String) (c : Char) (hc : c ∈ (normalizza w).data) :
    isWhitespaceJS c = false ∧ Char.toLower c = c :=
  normalizza_chars w c hc

/-- C9 witness: the character `'c'` of `normalizza "Ciao Mondo"`. -/
theorem claim_C9_witness :
    'c' ∈ (normalizza "Ciao Mondo").data ∧
      (isWhitespaceJS 'c' = false ∧ Char.toLower 'c' = 'c') :=
  ⟨by decide, claim_C9_normalized_shape "Ciao Mondo" 'c' (by decide)⟩

/-- C10: `normalizza` is idempotent. -/
theorem claim_C10_normalize_idempotent (w : String) :
    normalizza (normalizza w) = normalizza w := by
  rw [normalizza]
  have h1 : (normalizza w).data.map Char.toLower = (normalizza w).data := by
    rw [List.map_congr_left (fun c hc => (normalizza_chars w c hc).2)]
    exact List.map_id _
  rw [h1]
  have h2 : (normalizza w).data.filter (fun c => !isWhitespaceJS c) = (normalizza w).data :=
    List.filter_eq_self.mpr (fun c hc => by rw [(normalizza_chars w c hc).1]; rfl)
  rw [h2]
  rw [trimJS_eq_self _ (fun c hc => (normalizza_chars w c hc).1)]

theorem set_self {α : Type} (l : List α) (i : ℕ) (h : i < l.length) : l.set i l[i] = l := by
  apply List.ext_getElem
  · simp
  · intro n h1 h2
    by_cases hn : i = n
    · subst hn; simp
    · rw [List.getElem_set_ne hn]

theorem count_set {α : Type} [DecidableEq α] (l : List α) (i : ℕ) (b c : α)
    (h : i < l.length) :
    (l.set i b).count c + (if l[i] = c then 1 else 0) =
      l.count c + (if b = c then 1 else 0) := by
  induction l generalizing i with
  | nil => simp at h
  | cons a t ih =>
    cases i with
    | zero =>
      simp only [List.set_cons_zero, List.getElem_cons_zero, List.count_cons]
      by_cases hac : a = c <;> by_cases hbc : b = c <;> simp [hac, hbc]
    | succ i' =>
      simp only [List.set_cons_succ, List.getElem_cons_succ, List.count_cons]
      have hi' : i' < t.length := by simpa using h
      have := ih i' hi'
      by_cases hac : c = a <;> simp [hac] at this ⊢ <;> omega

theorem swapList_perm {α : Type} [DecidableEq α] (l : List α) (i j : ℕ) :
    (swapList l i j).Perm l := by
  rw [swapList]
  cases hi : l[i]? with
  | none => exact List.Perm.refl _
  | some a =>
    cases hj : l[j]? with
    | none => exact List.Perm.refl _
    | some b =>
      rcases List.getElem?_eq_some_iff.mp hi with ⟨hil, hia⟩
      rcases List.getElem?_eq_some_iff.mp hj with ⟨hjl, hjb⟩
      show ((l.set i b).set j a).Perm l
      by_cases hij : i = j
      · subst hij
        have hab : a = b := by rw [← hia, ← hjb]
        subst hab
        rw [List.set_set, ← hia, set_self l i hil]
      · rw [List.perm_iff_count]
        intro c
        have h1 := count_set l i b c hil
        have h2 := count_set (l.set i b) j a c (by simpa using hjl)
        have hjlen : j < (l.set i b).length := by simpa using hjl
        have hjv : (l.set i b)[j] = b := by
          rw [List.getElem_set_ne hij, hjb]
        rw [hjv] at h2
        rw [hia] at h1
        by_cases hac : a = c <;> by_cases hbc : b = c <;>
          simp [hac, hbc] at h1 h2 ⊢ <;> omega

theorem fyLoop_perm {α : Type} [DecidableEq α] (l : List α) (i : ℕ) (js : List ℕ) :
    (fyLoop l i js).Perm l := by
  induction i generalizing l js with
  | zero => simp [fyLoop]
  | succ i' ih =>
    cases js with
    | nil => simp [fyLoop]
    | cons j js' =>
      rw [fyLoop]
      exact (ih _ _).trans (swapList_perm l (i' + 1) j)

theorem mescolaLettere_data_perm (w : String) (js : List ℕ) :
    (mescolaLettere w js).data.Perm w.data := by
  rw [mescolaLettere]
  exact fyLoop_perm _ _ _

theorem normalizza_perm {s t : String} (h : s.data.Perm t.data) :
    (normalizza s).data.Perm (normalizza t).data := by
  rw [normalizza_data, normalizza_data]
  exact (h.map Char.toLower).filter _

theorem ordina_eq_of_perm {s t : String} (h : s.data.Perm t.data) :
    ordina s = ordina t := by
  rw [ordina, ordina]
  have h1 : (s.data.insertionSort (fun c d => c ≤ d)).Perm
      (t.data.insertionSort (fun c d => c ≤ d)) :=
    ((List.perm_insertionSort _ _).trans h).trans (List.perm_insertionSort _ _).symm
  rw [List.eq_of_perm_of_sorted h1
    (List.sorted_insertionSort _ _) (List.sorted_insertionSort _ _)]

theorem sonoAnagrammi_of_data_perm (s t : String) (h : s.data.Perm t.data) :
    sonoAnagrammi s t = true := by
  have hp := normalizza_perm h
  have hlen : (normalizza s).length = (normalizza t).length := hp.length_eq
  have hord : ordina (normalizza s) = ordina (normalizza t) := ordina_eq_of_perm hp
  simp [sonoAnagrammi, hlen, hord]

/-- C8: for every word and every admissible sequence of random index
choices, the shuffled word has the same length and the same symbol
multiset as the original (which is used as given, without
normalization), hence `sonoAnagrammi` accepts the pair. -/
theorem claim_C8_shuffle_preserves_multiset (w : String) (js : List ℕ)
    (_hjs : validChoices (w.data.length - 1) js = true) :
    (mescolaLettere w js).length = w.length ∧
    (mescolaLettere w js).data.Perm w.data ∧
    sonoAnagrammi (mescolaLettere w js) w = true := by
  have hperm := mescolaLettere_data_perm w js
  exact ⟨hperm.length_eq, hperm, sonoAnagrammi_of_data_perm _ _ hperm⟩

/-- C8 witness: the choice sequence `[2, 1, 1]` for the word `"cane"`. -/
theorem claim_C8_witness :
    validChoices ("cane".data.length - 1) [2, 1, 1] = true ∧
    ((mescolaLettere "cane" [2, 1, 1]).length = "cane".length ∧
      (mescolaLettere "cane" [2, 1, 1]).data.Perm "cane".data ∧
      sonoAnagrammi (mescolaLettere "cane" [2, 1, 1]) "cane" = true) :=
  ⟨by decide, claim_C8_shuffle_preserves_multiset "cane" [2, 1, 1] (by decide)⟩

theorem gruppiOf_append_singleton (ps : List String) (p : String) :
    gruppiOf (ps ++ [p]) =
      objUpdate (gruppiOf ps) (chiaveAnagramma p) (fun o => o.getD [] ++ [p]) := by
  rw [gruppiOf, List.foldl_append]
  rfl

theorem gruppiOf_closed (ps : List String) :
    gruppiOf ps = (setDedup (ps.map chiaveAnagramma)).map
      (fun k => (k, ps.filter (fun w => decide (chiaveAnagramma w = k)))) := by
  induction ps using List.reverseRecOn with
  | nil => rfl
  | append_singleton ps p ih =>
    rw [gruppiOf_append_singleton, ih, List.map_append, List.map_singleton,
      setDedup_append_singleton]
    by_cases hk : chiaveAnagramma p ∈ ps.map chiaveAnagramma
    · rw [if_pos hk, objUpdate_map_mem _ _ _ _ (nodup_setDedup _)
        ((mem_setDedup _ _).mpr hk)]
      apply List.map_congr_left
      intro x hx
      by_cases hxk : x = chiaveAnagramma p
      · rw [if_pos hxk, List.filter_append]
        have hp : [p].filter (fun w => decide (chiaveAnagramma w = x)) = [p] := by
          simp [hxk.symm]
        rw [hp]
        simp
      · rw [if_neg hxk, List.filter_append]
        have hp : [p].filter (fun w => decide (chiaveAnagramma w = x)) = [] := by
          simp
          exact fun hc => hxk hc.symm
        rw [hp, List.append_nil]
    · rw [if_neg hk, objUpdate_map_not_mem _ _ _ _
        (fun hm => hk ((mem_setDedup _ _).mp hm)), List.map_append]
      congr 1
      · apply List.map_congr_left
        intro x hx
        have hxk : x ≠ chiaveAnagramma p := by
          intro hc
          exact hk (hc ▸ (mem_setDedup _ _).mp hx)
        rw [List.filter_append]
        have hp : [p].filter (fun w => decide (chiaveAnagramma w = x)) = [] := by
          simp
          exact fun hc => hxk hc.symm
        rw [hp, List.append_nil]
      · rw [List.map_singleton, List.filter_append]
        have h0 : ps.filter (fun w => decide (chiaveAnagramma w = chiaveAnagramma p)) = [] := by
          rw [List.filter_eq_nil_iff]
          intro w hw
          simp only [decide_eq_true_eq]
          intro hc
          exact hk (List.mem_map.mpr ⟨w, hw, hc⟩)
        have h1 : [p].filter (fun w => decide (chiaveAnagramma w = chiaveAnagramma p)) = [p] := by
          simp
        rw [h0, h1, List.nil_append]
        simp

theorem gruppiOf_keys (ps : List String) :
    (gruppiOf ps).map Prod.fst = setDedup (ps.map chiaveAnagramma) := by
  rw [gruppiOf_closed, List.map_map]
  rw [List.map_congr_left (fun a _ => rfl : ∀ a ∈ setDedup (ps.map chiaveAnagramma),
    (Prod.fst ∘ fun k => (k, ps.filter (fun w => decide (chiaveAnagramma w = k)))) a = a)]
  exact List.map_id _

theorem lookupAssoc_eq_some_iff {κ β : Type} [DecidableEq κ] (m : List (κ × β))
    (hm : (m.map Prod.fst).Nodup) (k : κ) (v : β) :
    lookupAssoc m k = some v ↔ (k, v) ∈ m := by
  induction m with
  | nil => simp [lookupAssoc]
  | cons q resto ih =>
    rcases q with ⟨k', v'⟩
    rw [List.map_cons, List.nodup_cons] at hm
    rw [lookupAssoc]
    by_cases hkk : k' = k
    · subst hkk
      rw [if_pos rfl]
      constructor
      · intro h
        have hv : v' = v := Option.some.inj h
        subst hv
        exact List.mem_cons_self _ _
      · intro h
        rcases List.mem_cons.mp h with h | h
        · exact congrArg some (congrArg Prod.snd h).symm
        · exact absurd (List.mem_map.mpr ⟨(k', v), h, rfl⟩) hm.1
    · rw [if_neg hkk, ih hm.2]
      constructor
      · exact List.mem_cons_of_mem _
      · intro h
        rcases List.mem_cons.mp h with h | h
        · exact absurd (congrArg Prod.fst h).symm hkk
        · exact h

theorem lookupAssoc_eq_none_iff {κ β : Type} [DecidableEq κ] (m : List (κ × β)) (k : κ) :
    lookupAssoc m k = none ↔ k ∉ m.map Prod.fst := by
  induction m with
  | nil => simp [lookupAssoc]
  | cons q resto ih =>
    rcases q with ⟨k', v'⟩
    rw [lookupAssoc, List.map_cons, List.mem_cons]
    by_cases hkk : k' = k
    · subst hkk
      simp
    · rw [if_neg hkk, ih]
      constructor
      · intro h hc
        rcases hc with hc | hc
        · exact hkk hc.symm
        · exact h hc
      · intro h
        exact fun hc => h (Or.inr hc)

theorem jsEntries_of_no_idx {κ β : Type} (isIdx : κ → Bool) (keyVal : κ → ℕ)
    (m : List (κ × β)) (h : ∀ p ∈ m, isIdx p.1 = false) :
    jsEntries isIdx keyVal m = m := by
  rw [jsEntries]
  have h1 : m.filter (fun p => isIdx p.1) = [] := by
    rw [List.filter_eq_nil_iff]
    intro p hp
    simp [h p hp]
  have h2 : m.filter (fun p => !isIdx p.1) = m := by
    rw [List.filter_eq_self]
    intro p hp
    simp [h p hp]
  rw [h1, h2]
  rfl

theorem mem_raggruppa_iff (ps : List String) (k : String) (v : List String) :
    (k, v) ∈ raggruppaAnagrammi ps ↔
      k ∈ setDedup (ps.map chiaveAnagramma) ∧
        v = ps.filter (fun w => decide (chiaveAnagramma w = k)) ∧ 1 < v.length := by
  rw [raggruppaAnagrammi, List.mem_filter,
    (jsEntries_perm isArrayIndexKey keyToNat (gruppiOf ps)).mem_iff, gruppiOf_closed,
    List.mem_map]
  constructor
  · rintro ⟨⟨x, hx, hxy⟩, hlen⟩
    have hk : x = k := congrArg Prod.fst hxy
    subst hk
    have hv : ps.filter (fun w => decide (chiaveAnagramma w = x)) = v :=
      congrArg Prod.snd hxy
    subst hv
    exact ⟨hx, rfl, by simpa using hlen⟩
  · rintro ⟨hk, rfl, hlen⟩
    exact ⟨⟨k, hk, rfl⟩, by simpa using hlen⟩

theorem raggruppa_keys_nodup (ps : List String) :
    ((raggruppaAnagrammi ps).map Prod.fst).Nodup := by
  have h1 : ((jsEntries isArrayIndexKey keyToNat (gruppiOf ps)).map Prod.fst).Nodup := by
    have hperm := (jsEntries_perm isArrayIndexKey keyToNat (gruppiOf ps)).map Prod.fst
    rw [hperm.nodup_iff, gruppiOf_keys]
    exact nodup_setDedup _
  refine List.Nodup.sublist ?_ h1
  exact (List.filter_sublist _).map Prod.fst

theorem raggruppa_lookup (ps : List String) (k : String) :
    lookupAssoc (raggruppaAnagrammi ps) k =
      if 1 < (ps.filter (fun w => decide (chiaveAnagramma w = k))).length
      then some (ps.filter (fun w => decide (chiaveAnagramma w = k))) else none := by
  by_cases h : 1 < (ps.filter (fun w => decide (chiaveAnagramma w = k))).length
  · rw [if_pos h]
    apply (lookupAssoc_eq_some_iff _ (raggruppa_keys_nodup ps) _ _).mpr
    apply (mem_raggruppa_iff ps k _).mpr
    refine ⟨?_, rfl, h⟩
    have hpos : 0 < (ps.filter (fun w => decide (chiaveAnagramma w = k))).length := by omega
    rcases List.exists_mem_of_length_pos hpos with ⟨w, hw⟩
    have hw' := List.mem_filter.mp hw
    apply (mem_setDedup _ _).mpr
    exact List.mem_map.mpr ⟨w, hw'.1, of_decide_eq_true hw'.2⟩
  · rw [if_neg h]
    apply (lookupAssoc_eq_none_iff _ _).mpr
    intro hk
    rcases List.mem_map.mp hk with ⟨⟨k', v⟩, hmem, hfst⟩
    have hk' : k' = k := hfst
    subst hk'
    rcases (mem_raggruppa_iff ps k' v).mp hmem with ⟨_, rfl, hlen⟩
    exact h hlen

/-- C7: `raggruppaAnagrammi` returns exactly the buckets with two or more
members, each bucket holding the original words with that anagram key in
input order; on the sample list it yields exactly the roma/amor/mora and
cane/acne groups, with `"casa"` excluded. -/
theorem claim_C7_grouping (parole : List String) (k : String) :
    lookupAssoc (raggruppaAnagrammi parole) k =
      (if 1 < (parole.filter (fun w => decide (chiaveAnagramma w = k))).length
        then some (parole.filter (fun w => decide (chiaveAnagramma w = k))) else none) ∧
    raggruppaAnagrammi ["roma", "amor", "mora", "cane", "acne", "casa"] =
      [("amor", ["roma", "amor", "mora"]), ("acen", ["cane", "acne"])] := by
  refine ⟨raggruppa_lookup parole k, ?_⟩
  decide

/-- C5 counterexample: on the input `["ba", "ab", "21", "12"]` the keys
of the returned mapping are iterated as `["12", "ab"]` — the array-index
key `"12"` is hoisted to the front by the JS own-property order — not in
insertion order of first occurrence `["ab", "12"]` as the claim states. -/
theorem claim_C5_counterexample :
    (jsEntries isArrayIndexKey keyToNat
        (raggruppaAnagrammi ["ba", "ab", "21", "12"])).map Prod.fst ≠
      specInsertionKeyOrder ["ba", "ab", "21", "12"] := by
  decide

/-- C5 amended: the keys of the mapping returned by `raggruppaAnagrammi`
are iterated in insertion order of each key's first occurrence provided
no key is an array-index-like string (an all-digit canonical numeral
below `2^32 - 1`); array-index-like keys are instead hoisted to the front
in ascending numeric order, as the counterexample shows. -/
theorem claim_C5_key_iteration_order (parole : List String)
    (h : ∀ w ∈ parole, isArrayIndexKey (chiaveAnagramma w) = false) :
    (jsEntries isArrayIndexKey keyToNat (raggruppaAnagrammi parole)).map Prod.fst =
      specInsertionKeyOrder parole := by
  have hkeys_g : ∀ p ∈ gruppiOf parole, isArrayIndexKey p.1 = false := by
    intro p hp
    have hp1 : p.1 ∈ (gruppiOf parole).map Prod.fst := List.mem_map.mpr ⟨p, hp, rfl⟩
    rw [gruppiOf_keys] at hp1
    rcases List.mem_map.mp ((mem_setDedup _ _).mp hp1) with ⟨w, hw, hwk⟩
    rw [← hwk]
    exact h w hw
  have hkeys_f : ∀ p ∈ (gruppiOf parole).filter (fun p => decide (1 < p.2.length)),
      isArrayIndexKey p.1 = false := by
    intro p hp
    exact hkeys_g p (List.mem_of_mem_filter hp)
  rw [raggruppaAnagrammi,
    jsEntries_of_no_idx isArrayIndexKey keyToNat (gruppiOf parole) hkeys_g,
    jsEntries_of_no_idx isArrayIndexKey keyToNat _ hkeys_f,
    gruppiOf_closed, List.filter_map, List.map_map, specInsertionKeyOrder]
  have hcomp : (Prod.fst ∘ fun k =>
      (k, parole.filter (fun w => decide (chiaveAnagramma w = k)))) = id :=
    funext (fun k => rfl)
  rw [hcomp, List.map_id]
  exact List.filter_congr (fun k _ => rfl)

/-- C5 witness: the amended key-order law instantiated on the sample
word list, whose keys are all non-numeric. -/
theorem claim_C5_witness :
    (∀ w ∈ (["roma", "amor", "mora", "cane", "acne", "casa"] : List String),
      isArrayIndexKey (chiaveAnagramma w) = false) ∧
    (jsEntries isArrayIndexKey keyToNat
        (raggruppaAnagrammi ["roma", "amor", "mora", "cane", "acne", "casa"])).map Prod.fst =
      specInsertionKeyOrder ["roma", "amor", "mora", "cane", "acne", "casa"] :=
  ⟨by decide, claim_C5_key_iteration_order _ (by decide)⟩
